import Mathlib

/-!
Verification of the RxIt lazy sequence-transformation pipeline.

The operators are shallowly embedded over `List`: a finite pull-based
sequence is a `List`, an operator is a function on lists, and the
JavaScript generator bodies are translated statement by statement into
structural recursions.  Infinite sequences and pull-by-pull laziness are
modelled by an explicit step-machine semantics (`MStep`, `runM`) with
fuel, where one machine step corresponds to one pull of the source.
-/

namespace RxIt

/-! ## reduce (src/distasd/source.js, reduce; transform.js, reduce)

The source keeps the accumulator slot `acc` in the factory closure and
mutates it inside the returned generator:

  let acc = args.length === 2 ? args[1] : unused;
  return function* (it) \{
    for (const el of it) \{
      if (acc === unused) \{ acc = el; \} else \{ acc = fn(acc, el); \}
    \}
    if (acc !== unused) \{ yield acc; \}
  \};

`reduceStep` is the loop body; alongside the accumulator it records the
argument pairs passed to `fn`, so that claims about which calls happen
are provable.  `Option` models the `unused` sentinel.  Because `acc`
lives in the factory closure, a second materialization of the same
operator instance starts from the accumulator left by the first one;
`reduceTwice` models exactly that. -/

def reduceStep (fn : α → α → α) : Option α × List (α × α) → α → Option α × List (α × α)
  | (none, calls), el => (some el, calls)
  | (some acc, calls), el => (some (fn acc el), calls ++ [(acc, el)])

def reduceRun (fn : α → α → α) (acc : Option α) (l : List α) : Option α × List (α × α) :=
  l.foldl (reduceStep fn) (acc, [])

def reduceAcc (fn : α → α → α) (acc : Option α) (l : List α) : Option α :=
  (reduceRun fn acc l).1

def reduceCalls (fn : α → α → α) (acc : Option α) (l : List α) : List (α × α) :=
  (reduceRun fn acc l).2

def reduceEmit (fn : α → α → α) (acc : Option α) (l : List α) : List α :=
  match reduceAcc fn acc l with
  | none => []
  | some v => [v]

def reduceTwice (fn : α → α → α) (l : List α) : List α × List α :=
  (reduceEmit fn none l, reduceEmit fn (reduceAcc fn none l) l)

/-! ## distinct (src/distasd/source.js, distinct) -/

def distinctGo [DecidableEq K] (keySelector : α → K) (hasSeen : List K) : List α → List α
  | [] => []
  | el :: rest =>
    if keySelector el ∈ hasSeen then distinctGo keySelector hasSeen rest
    else el :: distinctGo keySelector (keySelector el :: hasSeen) rest

def distinct [DecidableEq K] (keySelector : α → K) (l : List α) : List α :=
  distinctGo keySelector [] l

/-! ## distinctUntilChanged (src/distasd/source.js, distinctUntilChanged)

`Option K` models the `noValue` sentinel held in `last`. -/

def ducGo (comparator : K → K → Bool) (keySelector : α → K) :
    Option K → List α → List α
  | _, [] => []
  | none, el :: rest => el :: ducGo comparator keySelector (some (keySelector el)) rest
  | some lastKey, el :: rest =>
    if comparator lastKey (keySelector el) then
      ducGo comparator keySelector (some lastKey) rest
    else
      el :: ducGo comparator keySelector (some (keySelector el)) rest

def distinctUntilChanged (comparator : K → K → Bool) (keySelector : α → K)
    (l : List α) : List α :=
  ducGo comparator keySelector none l

/-! ## buffer (src/distasd/source.js, buffer with optional close predicate)

`bufferGo state i l` is the loop with the active buffer `state` and the
running index `i`; at exhaustion the buffer is emitted only when
non-empty (the `if (state.length)` guard).  The no-argument form uses
the default predicate that never closes. -/

def bufferGo (close : α → Nat → List α → Bool) (state : List α) (i : Nat) :
    List α → List (List α)
  | [] => if state.length = 0 then [] else [state]
  | el :: rest =>
    if close el i (state ++ [el]) then
      (state ++ [el]) :: bufferGo close [] (i + 1) rest
    else
      bufferGo close (state ++ [el]) (i + 1) rest

def buffer (close : α → Nat → List α → Bool) (l : List α) : List (List α) :=
  bufferGo close [] 0 l

def bufferDefaultClose : α → Nat → List α → Bool := fun _ _ _ => false

/-- The legacy no-parameter buffer from src/distasd/transform.js: it pushes
every element onto `acc` and unconditionally yields `acc` once, also when
the upstream was empty. -/
def bufferNoArgOld (l : List α) : List (List α) :=
  [l.foldl (fun acc el => acc ++ [el]) []]

/-! ## sinks (unwrap, unwrapReduce; src sink.ts)

Thrown `TypeError`s are modelled with `Except`. -/

inductive SinkError where
  | noValuesToUnwrap
  | internalAssumption
deriving DecidableEq

def unwrap (l : List β) : Except SinkError (List β) :=
  match buffer bufferDefaultClose l with
  | [] => .error .noValuesToUnwrap
  | result0 :: _ => .ok result0

def unwrapReduce (fn : α → α → α) (initial : Option α) (l : List α) :
    Except SinkError α :=
  match unwrap (reduceEmit fn initial l) with
  | .error e => .error e
  | .ok reduced =>
    match reduced with
    | [v] => .ok v
    | _ => .error .internalAssumption

/-! ## basic reduce lemmas -/

theorem reduceRun_cons (fn : α → α → α) (acc : Option α) (calls : List (α × α))
    (x : α) (xs : List α) :
    List.foldl (reduceStep fn) (acc, calls) (x :: xs) =
      List.foldl (reduceStep fn) (reduceStep fn (acc, calls) x) xs := by
  simp [List.foldl_cons]

theorem reduceFoldl_some_fst (fn : α → α → α) :
    ∀ (l : List α) (a : α) (calls : List (α × α)),
      (List.foldl (reduceStep fn) (some a, calls) l).1 = some (List.foldl fn a l) := by
  intro l
  induction l with
  | nil => intro a calls; rfl
  | cons y ys ih =>
    intro a calls
    simp only [List.foldl_cons, reduceStep]
    exact ih (fn a y) (calls ++ [(a, y)])

theorem reduceFoldl_calls_append (fn : α → α → α) :
    ∀ (l : List α) (a : α) (calls : List (α × α)),
      (List.foldl (reduceStep fn) (some a, calls) l).2 =
        calls ++ (List.foldl (reduceStep fn) (some a, ([] : List (α × α))) l).2 := by
  intro l
  induction l with
  | nil => intro a calls; simp
  | cons y ys ih =>
    intro a calls
    simp only [List.foldl_cons, reduceStep]
    rw [ih (fn a y) (calls ++ [(a, y)]), ih (fn a y) ([] ++ [(a, y)])]
    simp [List.append_assoc]

/-- C3: reduce folds with optional-seed semantics: on empty upstream it
emits nothing and never calls fn; with an initial value it emits exactly
that value on empty upstream, again without calling fn; on non-empty
upstream with no initial value it seeds the accumulator with the first
element and emits exactly the single left fold, and the first call of fn
receives the first element as accumulator and the second element as
argument (fn is never called with the unset sentinel). -/
theorem reduce_fold_contract :
    (∀ (α : Type) (fn : α → α → α),
      reduceEmit fn none ([] : List α) = [] ∧ reduceCalls fn none ([] : List α) = []) ∧
    (∀ (α : Type) (fn : α → α → α) (init : α),
      reduceEmit fn (some init) ([] : List α) = [init] ∧
        reduceCalls fn (some init) ([] : List α) = []) ∧
    (∀ (α : Type) (fn : α → α → α) (x : α) (xs : List α),
      reduceEmit fn none (x :: xs) = [List.foldl fn x xs]) ∧
    (∀ (α : Type) (fn : α → α → α) (x y : α) (ys : List α),
      (reduceCalls fn none (x :: y :: ys)).head? = some (x, y)) := by
  refine ⟨fun α fn => ⟨rfl, rfl⟩, fun α fn init => ⟨rfl, rfl⟩, ?_, ?_⟩
  · intro α fn x xs
    have h : reduceAcc fn none (x :: xs) = some (List.foldl fn x xs) := by
      show (List.foldl (reduceStep fn) (none, []) (x :: xs)).1 = _
      rw [List.foldl_cons]
      exact reduceFoldl_some_fst fn xs x []
    simp [reduceEmit, h]
  · intro α fn x y ys
    show (List.foldl (reduceStep fn) (none, []) (x :: y :: ys)).2.head? = some (x, y)
    rw [List.foldl_cons, List.foldl_cons]
    show (List.foldl (reduceStep fn) (some (fn x y), [] ++ [(x, y)]) ys).2.head? = some (x, y)
    rw [reduceFoldl_calls_append]
    simp

/-- C1: the reduce operator is not pure across materializations: the
accumulator lives in the factory closure, so materializing one and the
same reduce((a,b) => a+b) instance twice against the upstream [1] yields
[1] the first time and [2] the second time, refuting the claim that both
materializations produce the same output. -/
theorem reduce_shared_accumulator_across_materializations :
    reduceTwice Nat.add [1] = ([1], [2]) ∧ ([1] : List Nat) ≠ [2] := by
  decide

/-! ## buffer lemmas -/

theorem bufferGo_join (close : α → Nat → List α → Bool) :
    ∀ (l state : List α) (i : Nat), (bufferGo close state i l).flatten = state ++ l := by
  intro l
  induction l with
  | nil =>
    intro state i
    cases state with
    | nil => simp [bufferGo]
    | cons a as => simp [bufferGo]
  | cons el rest ih =>
    intro state i
    by_cases h : close el i (state ++ [el]) = true
    · simp only [bufferGo, if_pos h, List.flatten_cons, ih [] (i + 1)]
      simp
    · rw [bufferGo, if_neg h, ih (state ++ [el]) (i + 1)]
      simp

/-- C10: buffer partitions its input: for every close predicate and every
finite upstream, the concatenation of all emitted buffers, in emission
order, is exactly the upstream sequence, so every element lands in exactly
one buffer and no buffer contains anything else. -/
theorem buffer_partitions_input :
    ∀ (α : Type) (close : α → Nat → List α → Bool) (l : List α),
      (buffer close l).flatten = l := by
  intro α close l
  have h := bufferGo_join close l [] 0
  simpa [buffer] using h

/-- C2 counterexample: the unified buffer implementation with the default
never-closing predicate (the no-argument form) emits nothing on an empty
upstream, not a single empty buffer. -/
theorem buffer_noarg_empty_counterexample :
    buffer bufferDefaultClose ([] : List Nat) = [] ∧
      buffer bufferDefaultClose ([] : List Nat) ≠ [[]] := by
  decide

/-- C2 amended: in the unified buffer implementation the no-argument form
behaves exactly like the close-predicate form on an empty upstream: both
emit nothing; only the legacy no-parameter buffer of transform.js emits a
single empty buffer when the upstream was empty. -/
theorem buffer_empty_upstream_amended :
    (∀ (α : Type) (close : α → Nat → List α → Bool),
      buffer close ([] : List α) = []) ∧
    (∀ (α : Type), bufferNoArgOld ([] : List α) = [[]]) := by
  exact ⟨fun α close => rfl, fun α => rfl⟩

/-! ## unwrapReduce lemmas -/

theorem unwrap_single (v : β) : unwrap [v] = .ok [v] := rfl

theorem unwrapReduce_of_emit_single (fn : α → α → α) (initial : Option α)
    (l : List α) (v : α) (h : reduceEmit fn initial l = [v]) :
    unwrapReduce fn initial l = .ok v := by
  unfold unwrapReduce
  rw [h]
  rfl

/-- C7: unwrapReduce with no initial value fails with the distinguished
empty-upstream error on empty upstream without ever calling fn, returns
the initial value on empty upstream when one is supplied, and on
non-empty upstream returns the single folded value that reduce emits
(first element as seed without an initial value, left fold from the
initial value otherwise). -/
theorem unwrapReduce_contract :
    (∀ (α : Type) (fn : α → α → α),
      unwrapReduce fn none ([] : List α) = .error .noValuesToUnwrap ∧
        reduceCalls fn none ([] : List α) = []) ∧
    (∀ (α : Type) (fn : α → α → α) (init : α),
      unwrapReduce fn (some init) ([] : List α) = .ok init) ∧
    (∀ (α : Type) (fn : α → α → α) (x : α) (xs : List α),
      unwrapReduce fn none (x :: xs) = .ok (List.foldl fn x xs)) ∧
    (∀ (α : Type) (fn : α → α → α) (init : α) (l : List α),
      unwrapReduce fn (some init) l = .ok (List.foldl fn init l)) := by
  refine ⟨fun α fn => ⟨rfl, rfl⟩, fun α fn init => rfl, ?_, ?_⟩
  · intro α fn x xs
    apply unwrapReduce_of_emit_single
    have h : reduceAcc fn none (x :: xs) = some (List.foldl fn x xs) := by
      show (List.foldl (reduceStep fn) (none, []) (x :: xs)).1 = _
      rw [List.foldl_cons]
      exact reduceFoldl_some_fst fn xs x []
    simp [reduceEmit, h]
  · intro α fn init l
    apply unwrapReduce_of_emit_single
    have h : reduceAcc fn (some init) l = some (List.foldl fn init l) :=
      reduceFoldl_some_fst fn l init []
    simp [reduceEmit, h]

/-! ## distinct lemmas -/

theorem distinctGo_nodup_not_mem [DecidableEq α] :
    ∀ (l seen : List α),
      (∀ a ∈ distinctGo (fun v => v) seen l, a ∉ seen) ∧
        (distinctGo (fun v => v) seen l).Nodup := by
  intro l
  induction l with
  | nil => intro seen; simp [distinctGo]
  | cons el rest ih =>
    intro seen
    by_cases h : el ∈ seen
    · simpa [distinctGo, h] using ih seen
    · have hrec := ih (el :: seen)
      refine ⟨?_, ?_⟩
      · intro a ha
        simp only [distinctGo, if_neg h, List.mem_cons] at ha
        rcases ha with rfl | ha
        · exact h
        · have := hrec.1 a ha
          intro hmem
          exact this (List.mem_cons_of_mem el hmem)
      · simp only [distinctGo, if_neg h, List.nodup_cons]
        refine ⟨?_, hrec.2⟩
        intro hmem
        exact hrec.1 el hmem (List.mem_cons_self el seen)

theorem distinctGo_of_nodup [DecidableEq α] :
    ∀ (l seen : List α), l.Nodup → (∀ a ∈ l, a ∉ seen) →
      distinctGo (fun v => v) seen l = l := by
  intro l
  induction l with
  | nil => intro seen _ _; rfl
  | cons el rest ih =>
    intro seen hnd hmem
    have hel : el ∉ seen := hmem el (List.mem_cons_self el rest)
    simp only [distinctGo, if_neg hel]
    congr 1
    apply ih (el :: seen) (List.Nodup.of_cons hnd)
    intro a ha
    simp only [List.mem_cons]
    rintro (rfl | hs)
    · exact (List.nodup_cons.1 hnd).1 ha
    · exact hmem a (List.mem_cons_of_mem el ha) hs

/-- C8: distinct with the identity key selector is idempotent: applying a
fresh distinct operator to the output of another fresh distinct operator
yields exactly the output of a single application, because a single
application already produces a duplicate-free sequence and distinct leaves
duplicate-free input unchanged. -/
theorem distinct_idempotent :
    ∀ (α : Type) [DecidableEq α] (l : List α),
      distinct (fun v => v) (distinct (fun v => v) l) = distinct (fun v => v) l := by
  intro α _ l
  have h := distinctGo_nodup_not_mem l ([] : List α)
  unfold distinct
  apply distinctGo_of_nodup _ _ h.2
  intro a _
  simp

/-! ## distinctUntilChanged lemmas -/

theorem ducGo_head_cmp (comparator : K → K → Bool) (keySelector : α → K) :
    ∀ (l : List α) (k : K) (b : α),
      (ducGo comparator keySelector (some k) l).head? = some b →
        comparator k (keySelector b) = false := by
  intro l
  induction l with
  | nil => intro k b h; simp [ducGo] at h
  | cons el rest ih =>
    intro k b h
    by_cases hc : comparator k (keySelector el) = true
    · rw [ducGo, if_pos hc] at h
      exact ih k b h
    · rw [ducGo, if_neg hc] at h
      simp only [List.head?_cons, Option.some.injEq] at h
      subst h
      simpa using hc

theorem ducGo_chain (comparator : K → K → Bool) (keySelector : α → K) :
    ∀ (l : List α) (acc : Option K),
      List.Chain' (fun a b => comparator (keySelector a) (keySelector b) = false)
        (ducGo comparator keySelector acc l) := by
  intro l
  induction l with
  | nil => intro acc; cases acc <;> simp [ducGo]
  | cons el rest ih =>
    intro acc
    cases acc with
    | none =>
      rw [ducGo]
      rw [List.chain'_cons']
      refine ⟨?_, ih (some (keySelector el))⟩
      intro b hb
      exact ducGo_head_cmp comparator keySelector rest (keySelector el) b hb
    | some k =>
      by_cases hc : comparator k (keySelector el) = true
      · rw [ducGo, if_pos hc]
        exact ih (some k)
      · rw [ducGo, if_neg hc]
        rw [List.chain'_cons']
        refine ⟨?_, ih (some (keySelector el))⟩
        intro b hb
        exact ducGo_head_cmp comparator keySelector rest (keySelector el) b hb

theorem ducGo_sublist (comparator : K → K → Bool) (keySelector : α → K) :
    ∀ (l : List α) (acc : Option K),
      List.Sublist (ducGo comparator keySelector acc l) l := by
  intro l
  induction l with
  | nil => intro acc; cases acc <;> simp [ducGo]
  | cons el rest ih =>
    intro acc
    cases acc with
    | none =>
      rw [ducGo]
      exact List.Sublist.cons₂ el (ih (some (keySelector el)))
    | some k =>
      by_cases hc : comparator k (keySelector el) = true
      · rw [ducGo, if_pos hc]
        exact List.Sublist.cons el (ih (some k))
      · rw [ducGo, if_neg hc]
        exact List.Sublist.cons₂ el (ih (some (keySelector el)))

/-- C6: distinctUntilChanged emits an element exactly when the last-key
slot is unset (so the first element is always emitted) or the comparator
rejects the pair of last key and current key; emission updates the last
key to the key of the emitted element while a skip leaves it unchanged;
consequently the output is a subsequence of the input whose adjacent
elements always have comparator-distinct keys, and the unset sentinel is
never passed to the comparator (its argument type carries only real
keys).  The reference example evaluates as specified. -/
theorem distinctUntilChanged_contract :
    (∀ (α K : Type) (comparator : K → K → Bool) (keySelector : α → K) (l : List α),
      List.Sublist (distinctUntilChanged comparator keySelector l) l) ∧
    (∀ (α K : Type) (comparator : K → K → Bool) (keySelector : α → K) (l : List α),
      List.Chain' (fun a b => comparator (keySelector a) (keySelector b) = false)
        (distinctUntilChanged comparator keySelector l)) ∧
    (∀ (α K : Type) (comparator : K → K → Bool) (keySelector : α → K) (x : α) (xs : List α),
      distinctUntilChanged comparator keySelector (x :: xs) =
        x :: ducGo comparator keySelector (some (keySelector x)) xs) ∧
    (∀ (α K : Type) (comparator : K → K → Bool) (keySelector : α → K)
        (k : K) (el : α) (rest : List α),
      ducGo comparator keySelector (some k) (el :: rest) =
        if comparator k (keySelector el) then
          ducGo comparator keySelector (some k) rest
        else
          el :: ducGo comparator keySelector (some (keySelector el)) rest) ∧
    distinctUntilChanged (fun a b => a == b) (fun v => v)
        [1, 1, 2, 1, 2, 3, 3, 1, 4, 4, 4] = ([1, 2, 1, 2, 3, 1, 4] : List Nat) := by
  refine ⟨?_, ?_, ?_, ?_, ?_⟩
  · intro α K comparator keySelector l
    exact ducGo_sublist comparator keySelector l none
  · intro α K comparator keySelector l
    exact ducGo_chain comparator keySelector l none
  · intro α K comparator keySelector x xs
    rfl
  · intro α K comparator keySelector k el rest
    rfl
  · decide

/-! ## bufferToggle (src/distasd/source.js, bufferToggle)

A buffer pairs its accumulated state with its close predicate.  The open
callback returns, as in the source, either a boolean or a close
function.  Closed buffers become `none` placeholders in the queue, new
buffers are pushed at the back before the per-buffer append/close loop
runs, and leading `none` slots are trimmed after each element, exactly
as in the source. -/

structure Buffer (α : Type) where
  state : List α
  close : α → Nat → List α → Bool

inductive BufferOpen (α : Type) where
  | bool (b : Bool)
  | closeFn (close : α → Nat → List α → Bool)

def appendAndClose (el : α) (i : Nat) :
    List (Option (Buffer α)) → List (Option (Buffer α)) × List (List α)
  | [] => ([], [])
  | none :: rest =>
    (none :: (appendAndClose el i rest).1, (appendAndClose el i rest).2)
  | some b :: rest =>
    if b.close el i (b.state ++ [el]) then
      (none :: (appendAndClose el i rest).1,
        (b.state ++ [el]) :: (appendAndClose el i rest).2)
    else
      (some ⟨b.state ++ [el], b.close⟩ :: (appendAndClose el i rest).1,
        (appendAndClose el i rest).2)

def togOpenBuffers (opn : α → Nat → BufferOpen α) (el : α) (i : Nat)
    (buffers : List (Option (Buffer α))) : List (Option (Buffer α)) :=
  match opn el i with
  | .bool false => buffers
  | .bool true => buffers ++ [some ⟨[], fun _ _ _ => false⟩]
  | .closeFn c => buffers ++ [some ⟨[], c⟩]

def togGo (opn : α → Nat → BufferOpen α) (buffers : List (Option (Buffer α)))
    (i : Nat) : List α → List (List α)
  | [] => buffers.filterMap (fun ob => ob.map Buffer.state)
  | el :: rest =>
    (appendAndClose el i (togOpenBuffers opn el i buffers)).2 ++
      togGo opn
        ((appendAndClose el i (togOpenBuffers opn el i buffers)).1.dropWhile Option.isNone)
        (i + 1) rest

def bufferToggle (opn : α → Nat → BufferOpen α) (l : List α) : List (List α) :=
  togGo opn [] 0 l

/-! ## bufferToggle with a constantly-true open callback -/

def mkTog (s : List α) : Option (Buffer α) := some ⟨s, fun _ _ _ => false⟩

theorem appendAndClose_mkTog (el : α) (i : Nat) :
    ∀ ss : List (List α),
      appendAndClose el i (ss.map mkTog) =
        ((ss.map (fun s => s ++ [el])).map mkTog, []) := by
  intro ss
  induction ss with
  | nil => rfl
  | cons s ss ih =>
    simp [List.map_cons, appendAndClose, mkTog, ih]

theorem dropWhile_isNone_mkTog :
    ∀ ss : List (List α), (ss.map mkTog).dropWhile Option.isNone = ss.map mkTog := by
  intro ss
  cases ss with
  | nil => rfl
  | cons s ss => simp [List.dropWhile, mkTog]

theorem filterMap_state_mkTog :
    ∀ ss : List (List α), (ss.map mkTog).filterMap (fun ob => ob.map Buffer.state) = ss := by
  intro ss
  induction ss with
  | nil => rfl
  | cons s ss ih => simp [mkTog, List.filterMap_cons, ih]

theorem togGo_openTrue :
    ∀ (l : List α) (ss : List (List α)) (i : Nat),
      togGo (fun _ _ => .bool true) (ss.map mkTog) i l =
        ss.map (fun s => s ++ l) ++ (List.range l.length).map (fun j => l.drop j) := by
  intro l
  induction l with
  | nil =>
    intro ss i
    rw [togGo, filterMap_state_mkTog]
    simp
  | cons el rest ih =>
    intro ss i
    have hopen : togOpenBuffers (fun _ _ => BufferOpen.bool true) el i (ss.map mkTog) =
        ((ss ++ [[]]).map mkTog) := by
      simp [togOpenBuffers, mkTog]
    rw [togGo, hopen, appendAndClose_mkTog, dropWhile_isNone_mkTog]
    rw [ih]
    simp only [List.map_append, List.map_map, List.map_cons, List.map_nil, List.length_cons]
    rw [List.range_succ_eq_map]
    have h1 : ((fun s => s ++ rest) ∘ fun s => s ++ [el]) = (fun s : List α => s ++ el :: rest) := by
      funext s
      simp [List.append_assoc]
    have h2 : ((fun j => List.drop j (el :: rest)) ∘ Nat.succ) = (fun j : Nat => List.drop j rest) := by
      funext j
      simp
    rw [h1]
    simp [h2, List.append_assoc]

/-- C4: bufferToggle with an open callback that constantly returns true
opens one never-closing buffer per upstream element, so on a non-empty
upstream x0..xk it emits exactly k+1 buffers at end-of-input, flushed in
creation order, the i-th being the suffix starting at xi.  The reference
example from the spec evaluates accordingly. -/
theorem bufferToggle_always_open_suffixes :
    (∀ (α : Type) (x : α) (xs : List α),
      bufferToggle (fun _ _ => .bool true) (x :: xs) =
        (List.range (x :: xs).length).map (fun j => (x :: xs).drop j)) ∧
    bufferToggle (fun _ _ => .bool true) [2, 3, 4, 5] =
      ([[2, 3, 4, 5], [3, 4, 5], [4, 5], [5]] : List (List Nat)) := by
  constructor
  · intro α x xs
    have h := togGo_openTrue (x :: xs) ([] : List (List α)) 0
    simpa [bufferToggle] using h
  · decide

/-! ## Step-machine semantics for lazy pull pipelines

A machine is a step function on states: each step either finishes,
yields one downstream element, or silently consumes one upstream pull.
`runM` drives a machine with fuel; `rest = none` means the generator
completed, `rest = some s` means the fuel ran out in state `s`.
`steps` counts the steps actually taken; for pipelines stacked on
`natSrcStep` every step performs exactly one source pull, so `steps`
is the number of source elements pulled. -/

inductive MStep (σ α : Type) where
  | done
  | skip (s : σ)
  | yield (a : α) (s : σ)

structure RunRes (σ α : Type) where
  out : List α
  rest : Option σ
  steps : Nat
deriving DecidableEq

def runM (step : σ → MStep σ α) : Nat → σ → RunRes σ α
  | 0, s => ⟨[], some s, 0⟩
  | fuel + 1, s =>
    match step s with
    | .done => ⟨[], none, 1⟩
    | .skip s' =>
      let r := runM step fuel s'
      ⟨r.out, r.rest, r.steps + 1⟩
    | .yield a s' =>
      let r := runM step fuel s'
      ⟨a :: r.out, r.rest, r.steps + 1⟩

theorem runM_add (step : σ → MStep σ α) :
    ∀ (f1 f2 : Nat) (s s1 : σ) (o : List α) (k : Nat),
      runM step f1 s = ⟨o, some s1, k⟩ →
        runM step (f1 + f2) s =
          ⟨o ++ (runM step f2 s1).out, (runM step f2 s1).rest,
            k + (runM step f2 s1).steps⟩ := by
  intro f1
  induction f1 with
  | zero =>
    intro f2 s s1 o k h
    rw [runM] at h
    cases h
    rw [Nat.zero_add, Nat.zero_add]
    simp
  | succ f ih =>
    intro f2 s s1 o k h
    rw [Nat.succ_add]
    rw [runM] at h
    rw [runM]
    cases hs : step s with
    | done =>
      rw [hs] at h
      cases h
    | skip s' =>
      rw [hs] at h
      simp only at h
      have h1 : runM step f s' = ⟨(runM step f s').out, some s1, (runM step f s').steps⟩ := by
        have hrest : (runM step f s').rest = some s1 := by
          have := congrArg RunRes.rest h
          simpa using this
        rw [← hrest]
      have hout : (runM step f s').out = o := by
        have := congrArg RunRes.out h
        simpa using this
      have hsteps : (runM step f s').steps + 1 = k := by
        have := congrArg RunRes.steps h
        simpa using this
      rw [hout] at h1
      have h2 := ih f2 s' s1 o (runM step f s').steps h1
      simp only [hout] at h2
      simp only [h2]
      rw [← hsteps]
      simp [Nat.add_right_comm]
    | yield a s' =>
      rw [hs] at h
      simp only at h
      have hrest : (runM step f s').rest = some s1 := by
        have := congrArg RunRes.rest h
        simpa using this
      have hout : a :: (runM step f s').out = o := by
        have := congrArg RunRes.out h
        simpa using this
      have hsteps : (runM step f s').steps + 1 = k := by
        have := congrArg RunRes.steps h
        simpa using this
      have h1 : runM step f s' = ⟨(runM step f s').out, some s1, (runM step f s').steps⟩ := by
        rw [← hrest]
      have h2 := ih f2 s' s1 (runM step f s').out (runM step f s').steps h1
      simp only [h2]
      rw [← hout, ← hsteps]
      simp [Nat.add_right_comm]

theorem runM_done_absorb (step : σ → MStep σ α) :
    ∀ (f1 f2 : Nat) (s : σ) (o : List α) (k : Nat),
      runM step f1 s = ⟨o, none, k⟩ →
        runM step (f1 + f2) s = ⟨o, none, k⟩ := by
  intro f1
  induction f1 with
  | zero =>
    intro f2 s o k h
    rw [runM] at h
    cases h
  | succ f ih =>
    intro f2 s o k h
    rw [Nat.succ_add]
    rw [runM] at h
    rw [runM]
    cases hs : step s with
    | done =>
      rw [hs] at h
      exact h
    | skip s' =>
      rw [hs] at h
      simp only at h
      have hrest : (runM step f s').rest = none := by
        have := congrArg RunRes.rest h
        simpa using this
      have hout : (runM step f s').out = o := by
        have := congrArg RunRes.out h
        simpa using this
      have hsteps : (runM step f s').steps + 1 = k := by
        have := congrArg RunRes.steps h
        simpa using this
      have h1 : runM step f s' = ⟨o, none, (runM step f s').steps⟩ := by
        rw [← hout, ← hrest]
      have h2 := ih f2 s' o (runM step f s').steps h1
      simp only [h2]
      rw [← hsteps]
    | yield a s' =>
      rw [hs] at h
      simp only at h
      have hrest : (runM step f s').rest = none := by
        have := congrArg RunRes.rest h
        simpa using this
      have hout : a :: (runM step f s').out = o := by
        have := congrArg RunRes.out h
        simpa using this
      have hsteps : (runM step f s').steps + 1 = k := by
        have := congrArg RunRes.steps h
        simpa using this
      have h1 : runM step f s' = ⟨(runM step f s').out, none, (runM step f s').steps⟩ := by
        rw [← hrest]
      have h2 := ih f2 s' (runM step f s').out (runM step f s').steps h1
      simp only [h2]
      rw [← hout, ← hsteps]

def StepPreserves (step : σ → MStep σ α) (inv : σ → Prop) : Prop :=
  ∀ s, inv s →
    step s ≠ .done ∧
      (∀ s', step s = .skip s' → inv s') ∧
      (∀ a s', step s = .yield a s' → inv s')

theorem runM_rest_ne_none (step : σ → MStep σ α) (inv : σ → Prop)
    (hstep : StepPreserves step inv) :
    ∀ (f : Nat) (s : σ), inv s → (runM step f s).rest ≠ none := by
  intro f
  induction f with
  | zero =>
    intro s _
    rw [runM]
    simp
  | succ f ih =>
    intro s hs
    rw [runM]
    cases hstp : step s with
    | done =>
      exact absurd hstp (hstep s hs).1
    | skip s' =>
      simpa using ih s' ((hstep s hs).2.1 s' hstp)
    | yield a s' =>
      simpa using ih s' ((hstep s hs).2.2 a s' hstp)

/-! ## machines for sources and stateless operators

`natSrcStep` is an infinite source (it yields on every pull).  The
operator machines mirror the generator bodies of map, filter, takeWhile
and take from the source: each downstream step performs exactly one
upstream step, the element index is carried in the state, a failing
takeWhile predicate terminates after having pulled the element that
failed, and take(count) is takeWhile(index < count). -/

def natSrcStep (s : Nat → α) : Nat → MStep Nat α :=
  fun k => .yield (s k) (k + 1)

def mapStep (mapping : α → Nat → β) (step : σ → MStep σ α) :
    σ × Nat → MStep (σ × Nat) β := fun p =>
  match step p.1 with
  | .done => .done
  | .skip s' => .skip (s', p.2)
  | .yield el s' => .yield (mapping el p.2) (s', p.2 + 1)

def filterStep (predicate : α → Nat → Bool) (step : σ → MStep σ α) :
    σ × Nat → MStep (σ × Nat) α := fun p =>
  match step p.1 with
  | .done => .done
  | .skip s' => .skip (s', p.2)
  | .yield el s' =>
    if predicate el p.2 then .yield el (s', p.2 + 1) else .skip (s', p.2 + 1)

def takeWhileStep (predicate : α → Nat → Bool) (step : σ → MStep σ α) :
    σ × Nat → MStep (σ × Nat) α := fun p =>
  match step p.1 with
  | .done => .done
  | .skip s' => .skip (s', p.2)
  | .yield el s' =>
    if predicate el p.2 then .yield el (s', p.2 + 1) else .done

def takeStep (countElements : Nat) (step : σ → MStep σ α) :
    σ × Nat → MStep (σ × Nat) α :=
  takeWhileStep (fun _ index => decide (index < countElements)) step

/-! ## repeat (src/distasd/source.js, repeat)

The machine follows the generator: an immediate return when the count is
zero, a live pass that yields each upstream element while pushing it onto
`values`, then the decrementing replay loop, whose counter starts at
count - 1 (or at -1 when no count was given, which also makes a negative
count loop forever because the loop condition is `counter different from
zero`). -/

inductive RepState (α : Type) where
  | start
  | live (rest : List α) (values : List α)
  | rcheck (counter : Int) (values : List α)
  | rrun (counter : Int) (values : List α) (queue : List α)
deriving DecidableEq

def repeatStep (countRepeats : Option Int) (l : List α) :
    RepState α → MStep (RepState α) α
  | .start => if countRepeats = some 0 then .done else .skip (.live l [])
  | .live (el :: rest) values => .yield el (.live rest (values ++ [el]))
  | .live [] values =>
    .skip (.rcheck (match countRepeats with | none => -1 | some n => n - 1) values)
  | .rcheck c values => if c = 0 then .done else .skip (.rrun c values values)
  | .rrun c values (el :: queue) => .yield el (.rrun c values queue)
  | .rrun c values [] => .skip (.rcheck (c - 1) values)

theorem runM_repeat_live (countRepeats : Option Int) (l : List α) :
    ∀ (rest values : List α),
      runM (repeatStep countRepeats l) rest.length (.live rest values) =
        ⟨rest, some (.live [] (values ++ rest)), rest.length⟩ := by
  intro rest
  induction rest with
  | nil =>
    intro values
    show runM (repeatStep countRepeats l) 0 (.live [] values) =
      ⟨[], some (.live [] (values ++ [])), 0⟩
    rw [runM]
    simp
  | cons x xs ih =>
    intro values
    show runM (repeatStep countRepeats l) (xs.length + 1) (.live (x :: xs) values) = _
    rw [runM]
    show (⟨x :: (runM (repeatStep countRepeats l) xs.length (.live xs (values ++ [x]))).out,
      (runM (repeatStep countRepeats l) xs.length (.live xs (values ++ [x]))).rest,
      (runM (repeatStep countRepeats l) xs.length (.live xs (values ++ [x]))).steps + 1⟩ :
        RunRes (RepState α) α) = _
    rw [ih (values ++ [x])]
    simp [List.append_assoc]

theorem runM_repeat_rrun (countRepeats : Option Int) (l : List α) :
    ∀ (q : List α) (c : Int) (values : List α),
      runM (repeatStep countRepeats l) (q.length + 1) (.rrun c values q) =
        ⟨q, some (.rcheck (c - 1) values), q.length + 1⟩ := by
  intro q
  induction q with
  | nil =>
    intro c values
    show runM (repeatStep countRepeats l) (0 + 1) (.rrun c values []) =
      ⟨[], some (.rcheck (c - 1) values), 0 + 1⟩
    rfl
  | cons x xs ih =>
    intro c values
    show runM (repeatStep countRepeats l) (xs.length + 1 + 1) (.rrun c values (x :: xs)) = _
    rw [runM]
    show (⟨x :: (runM (repeatStep countRepeats l) (xs.length + 1) (.rrun c values xs)).out,
      (runM (repeatStep countRepeats l) (xs.length + 1) (.rrun c values xs)).rest,
      (runM (repeatStep countRepeats l) (xs.length + 1) (.rrun c values xs)).steps + 1⟩ :
        RunRes (RepState α) α) = _
    rw [ih c values]
    simp

theorem runM_repeat_pass (countRepeats : Option Int) (l : List α)
    (c : Int) (hc : c ≠ 0) (values : List α) :
    runM (repeatStep countRepeats l) (values.length + 2) (.rcheck c values) =
      ⟨values, some (.rcheck (c - 1) values), values.length + 2⟩ := by
  show runM (repeatStep countRepeats l) (values.length + 1 + 1) (.rcheck c values) = _
  rw [runM]
  have hstep : repeatStep countRepeats l (.rcheck c values) =
      .skip (.rrun c values values) := by
    simp [repeatStep, hc]
  rw [hstep]
  simp only
  rw [runM_repeat_rrun countRepeats l values c values]

theorem runM_skip_one (step : σ → MStep σ α) (s s' : σ) (h : step s = .skip s') :
    runM step 1 s = ⟨[], some s', 1⟩ := by
  show runM step (0 + 1) s = _
  rw [runM, h]
  rfl

theorem runM_done_succ (step : σ → MStep σ α) (f : Nat) (s : σ) (h : step s = .done) :
    runM step (f + 1) s = ⟨[], none, 1⟩ := by
  rw [runM, h]

theorem runM_repeat_passes (countRepeats : Option Int) (l : List α) :
    ∀ (m : Nat) (values : List α),
      runM (repeatStep countRepeats l) (m * (values.length + 2) + 1)
          (.rcheck (m : Int) values) =
        ⟨(List.replicate m values).flatten, none, m * (values.length + 2) + 1⟩ := by
  intro m
  induction m with
  | zero =>
    intro values
    have hf : 0 * (values.length + 2) + 1 = 0 + 1 := by simp
    rw [hf]
    have h0 : ((0 : Nat) : Int) = 0 := by simp
    rw [h0]
    rfl
  | succ m ih =>
    intro values
    have hf : (m + 1) * (values.length + 2) + 1 =
        (values.length + 2) + (m * (values.length + 2) + 1) := by ring
    rw [hf]
    have hne : ((m + 1 : Nat) : Int) ≠ 0 := by exact_mod_cast Nat.succ_ne_zero m
    have hseg := runM_repeat_pass countRepeats l ((m + 1 : Nat) : Int) hne values
    have hc1 : ((m + 1 : Nat) : Int) - 1 = (m : Int) := by push_cast; ring
    rw [hc1] at hseg
    have hcomp := runM_add (repeatStep countRepeats l) (values.length + 2)
      (m * (values.length + 2) + 1) (.rcheck ((m + 1 : Nat) : Int) values)
      (.rcheck (m : Int) values) values (values.length + 2) hseg
    rw [ih values] at hcomp
    rw [hcomp]
    simp [List.replicate_succ]

theorem runM_repeat_neg (countRepeats : Option Int) (l : List α) :
    ∀ (k : Nat) (c : Int), c < 0 → ∀ values : List α,
      runM (repeatStep countRepeats l) (k * (values.length + 2)) (.rcheck c values) =
        ⟨(List.replicate k values).flatten, some (.rcheck (c - k) values),
          k * (values.length + 2)⟩ := by
  intro k
  induction k with
  | zero =>
    intro c hc values
    have hf : 0 * (values.length + 2) = 0 := by simp
    rw [hf]
    rw [runM]
    simp
  | succ k ih =>
    intro c hc values
    have hf : (k + 1) * (values.length + 2) =
        (values.length + 2) + (k * (values.length + 2)) := by ring
    rw [hf]
    have hseg := runM_repeat_pass countRepeats l c (ne_of_lt hc) values
    have hcomp := runM_add (repeatStep countRepeats l) (values.length + 2)
      (k * (values.length + 2)) (.rcheck c values) (.rcheck (c - 1) values)
      values (values.length + 2) hseg
    have hlt : c - 1 < 0 := by omega
    rw [ih (c - 1) hlt values] at hcomp
    have hcast : c - 1 - (k : Int) = c - ((k + 1 : Nat) : Int) := by push_cast; ring
    rw [hcast] at hcomp
    rw [hcomp]
    simp [List.replicate_succ]

def repNoneInv : RepState α → Prop
  | .rcheck c _ => c < 0
  | .rrun c _ _ => c < 0
  | _ => True

theorem repeat_none_inv_step (l : List α) :
    StepPreserves (repeatStep none l) (repNoneInv : RepState α → Prop) := by
  intro s hs
  cases s with
  | start =>
    have hstep : repeatStep none l .start = .skip (.live l []) := by
      simp [repeatStep]
    rw [hstep]
    refine ⟨by simp, ?_, by simp⟩
    intro s' h
    cases h
    trivial
  | live rest values =>
    cases rest with
    | nil =>
      refine ⟨by simp [repeatStep], ?_, by simp [repeatStep]⟩
      intro s' h
      have h2 : RepState.rcheck (-1 : Int) values = s' := by
        simpa [repeatStep] using h
      rw [← h2]
      show (-1 : Int) < 0
      decide
    | cons x xs =>
      refine ⟨by simp [repeatStep], by simp [repeatStep], ?_⟩
      intro a s' h
      have h2 : RepState.live xs (values ++ [x]) = s' := by
        have h3 : x = a ∧ RepState.live xs (values ++ [x]) = s' := by
          simpa [repeatStep] using h
        exact h3.2
      rw [← h2]
      trivial
  | rcheck c values =>
    have hc : c < 0 := hs
    have hstep : repeatStep none l (.rcheck c values) = .skip (.rrun c values values) := by
      simp [repeatStep, ne_of_lt hc]
    rw [hstep]
    refine ⟨by simp, ?_, by simp⟩
    intro s' h
    cases h
    exact hc
  | rrun c values queue =>
    have hc : c < 0 := hs
    cases queue with
    | nil =>
      refine ⟨by simp [repeatStep], ?_, by simp [repeatStep]⟩
      intro s' h
      have h2 : RepState.rcheck (c - 1) values = s' := by
        simpa [repeatStep] using h
      rw [← h2]
      show c - 1 < 0
      omega
    | cons x xs =>
      refine ⟨by simp [repeatStep], by simp [repeatStep], ?_⟩
      intro a s' h
      have h2 : RepState.rrun c values xs = s' := by
        have h3 : x = a ∧ RepState.rrun c values xs = s' := by
          simpa [repeatStep] using h
        exact h3.2
      rw [← h2]
      exact hc

/-- C5: repeat(0) emits nothing and finishes immediately for every
upstream; repeat(n) for n at least 1 emits the upstream sequence exactly
n consecutive times and completes (first pass live, the rest replayed
from the internal values buffer); repeat() with no argument emits the
upstream once followed by unbounded replays: for every k the run can be
driven to produce the upstream followed by k extra full passes, yet no
amount of fuel ever completes it.  The spec example take(7) over
repeat()([1,2]) evaluates to [1,2,1,2,1,2,1]. -/
theorem repeat_contract :
    (∀ (α : Type) (l : List α) (f : Nat),
      runM (repeatStep (some 0) l) (f + 1) .start = ⟨[], none, 1⟩) ∧
    (∀ (α : Type) (n : Nat) (l : List α), ∃ f : Nat,
      (runM (repeatStep (some ((n : Int) + 1)) l) f .start).out =
          (List.replicate (n + 1) l).flatten ∧
        (runM (repeatStep (some ((n : Int) + 1)) l) f .start).rest = none) ∧
    (∀ (α : Type) (k : Nat) (l : List α), ∃ f : Nat,
      (runM (repeatStep none l) f .start).out = l ++ (List.replicate k l).flatten) ∧
    (∀ (α : Type) (l : List α) (f : Nat),
      (runM (repeatStep none l) f .start).rest ≠ none) ∧
    ((runM (takeStep 7 (repeatStep none [1, 2])) 20 ((.start : RepState Nat), 0)).out =
        [1, 2, 1, 2, 1, 2, 1] ∧
      (runM (takeStep 7 (repeatStep none [1, 2])) 20 ((.start : RepState Nat), 0)).rest =
        none) := by
  refine ⟨?_, ?_, ?_, ?_, ?_⟩
  · intro α l f
    apply runM_done_succ
    simp [repeatStep]
  · intro α n l
    have hne : ((n : Int) + 1) ≠ 0 := by omega
    have hstart : repeatStep (some ((n : Int) + 1)) l .start = .skip (.live l []) := by
      simp [repeatStep, Option.some.injEq, hne]
    have h3seg : runM (repeatStep (some ((n : Int) + 1)) l) 1 (.live [] l) =
        ⟨[], some (.rcheck (((n : Int) + 1) - 1) l), 1⟩ :=
      runM_skip_one _ _ _ rfl
    have e : ((n : Int) + 1) - 1 = (n : Int) := by ring
    rw [e] at h3seg
    have h3 := runM_add (repeatStep (some ((n : Int) + 1)) l) 1
      (n * (l.length + 2) + 1) (.live [] l) (.rcheck (n : Int) l) [] 1 h3seg
    rw [runM_repeat_passes (some ((n : Int) + 1)) l n l] at h3
    have h2seg := runM_repeat_live (some ((n : Int) + 1)) l l []
    simp only [List.nil_append] at h2seg
    have h2 := runM_add (repeatStep (some ((n : Int) + 1)) l) l.length
      (1 + (n * (l.length + 2) + 1)) (.live l []) (.live [] l) l l.length h2seg
    rw [h3] at h2
    have h1seg := runM_skip_one (repeatStep (some ((n : Int) + 1)) l) .start
      (.live l []) hstart
    have h1 := runM_add (repeatStep (some ((n : Int) + 1)) l) 1
      (l.length + (1 + (n * (l.length + 2) + 1))) .start (.live l []) [] 1 h1seg
    rw [h2] at h1
    refine ⟨1 + (l.length + (1 + (n * (l.length + 2) + 1))), ?_, ?_⟩
    · rw [h1]
      simp [List.replicate_succ]
    · rw [h1]
  · intro α k l
    have hstart : repeatStep (none : Option Int) l .start = .skip (.live l []) := by
      simp [repeatStep]
    have hnegseg := runM_repeat_neg (none : Option Int) l k (-1) (by decide) l
    have h3seg : runM (repeatStep (none : Option Int) l) 1 (.live [] l) =
        ⟨[], some (.rcheck (-1) l), 1⟩ :=
      runM_skip_one _ _ _ rfl
    have h3 := runM_add (repeatStep (none : Option Int) l) 1
      (k * (l.length + 2)) (.live [] l) (.rcheck (-1) l) [] 1 h3seg
    rw [hnegseg] at h3
    have h2seg := runM_repeat_live (none : Option Int) l l []
    simp only [List.nil_append] at h2seg
    have h2 := runM_add (repeatStep (none : Option Int) l) l.length
      (1 + (k * (l.length + 2))) (.live l []) (.live [] l) l l.length h2seg
    rw [h3] at h2
    have h1seg := runM_skip_one (repeatStep (none : Option Int) l) .start
      (.live l []) hstart
    have h1 := runM_add (repeatStep (none : Option Int) l) 1
      (l.length + (1 + (k * (l.length + 2)))) .start (.live l []) [] 1 h1seg
    rw [h2] at h1
    refine ⟨1 + (l.length + (1 + (k * (l.length + 2)))), ?_⟩
    rw [h1]
    simp
  · intro α l f
    apply runM_rest_ne_none (repeatStep none l) repNoneInv (repeat_none_inv_step l)
    trivial
  · constructor
    · decide
    · decide

/-! ## laziness of take over stateless operators -/

def cexStep : (Nat × Nat) × Nat → MStep ((Nat × Nat) × Nat) Nat :=
  takeWhileStep (fun _ index => decide (index < 1))
    (filterStep (fun _ _ => false) (natSrcStep (fun k => k)))

theorem cexStep_run :
    ∀ (f k i j : Nat),
      runM cexStep f ((k, i), j) = ⟨[], some ((k + f, i + f), j), f⟩ := by
  intro f
  induction f with
  | zero =>
    intro k i j
    rw [runM]
    simp
  | succ f ih =>
    intro k i j
    have hstep : cexStep ((k, i), j) = .skip ((k + 1, i + 1), j) := rfl
    rw [runM, hstep]
    simp only
    rw [ih (k + 1) (i + 1) j]
    have h1 : k + 1 + f = k + (f + 1) := by omega
    have h2 : i + 1 + f = i + (f + 1) := by omega
    rw [h1, h2]

/-- C9 counterexample: take(1) applied to filter with an always-false
predicate over the infinite source 0,1,2,... never terminates: no amount
of fuel completes the run, refuting the claim for the stateless operator
filter. -/
theorem take_filter_never_terminates :
    ¬ ∃ f : Nat, (runM cexStep f ((0, 0), 0)).rest = none := by
  rintro ⟨f, h⟩
  rw [cexStep_run f 0 0 0] at h
  cases h

theorem take_map_run (s : Nat → α) (mapping : α → Nat → β) (n : Nat) :
    ∀ (m k i : Nat), i + m = n →
      runM (takeStep n (mapStep mapping (natSrcStep s))) (m + 1) ((k, i), i) =
        ⟨(List.range m).map (fun t => mapping (s (k + t)) (i + t)), none, m + 1⟩ := by
  intro m
  induction m with
  | zero =>
    intro k i hi
    have hlt : decide (i < n) = false := by
      subst hi
      simp
    have hstep : takeStep n (mapStep mapping (natSrcStep s)) ((k, i), i) = .done := by
      show (match (MStep.yield (mapping (s k) i) (k + 1, i + 1) : MStep (Nat × Nat) β) with
        | .done => MStep.done
        | .skip s' => MStep.skip (s', i)
        | .yield el s' => if decide (i < n) = true then .yield el (s', i + 1) else .done) = _
      simp [hlt]
    rw [runM, hstep]
    simp
  | succ m ih =>
    intro k i hi
    have hlt : decide (i < n) = true := by
      have : i < n := by omega
      simpa using this
    have hstep : takeStep n (mapStep mapping (natSrcStep s)) ((k, i), i) =
        .yield (mapping (s k) i) ((k + 1, i + 1), i + 1) := by
      show (match (MStep.yield (mapping (s k) i) (k + 1, i + 1) : MStep (Nat × Nat) β) with
        | .done => MStep.done
        | .skip s' => MStep.skip (s', i)
        | .yield el s' => if decide (i < n) = true then .yield el (s', i + 1) else .done) = _
      simp [hlt]
    rw [runM, hstep]
    simp only
    rw [ih (k + 1) (i + 1) (by omega)]
    have hfun : (fun t => mapping (s (k + 1 + t)) (i + 1 + t)) =
        (fun t => mapping (s (k + (t + 1))) (i + (t + 1))) := by
      funext t
      have e1 : k + 1 + t = k + (t + 1) := by omega
      have e2 : i + 1 + t = i + (t + 1) := by omega
      rw [e1, e2]
    rw [List.range_succ_eq_map]
    simp only [List.map_cons, List.map_map, Function.comp]
    rw [hfun]
    simp

/-- C9 amended: for the one-to-one stateless operator map the laziness
claim holds exactly: for every n and every infinite source, take(n)
applied to map over that source completes with fuel n+1, emits exactly
the n mapped elements, and performs exactly n+1 pulls of the source
(the extra pull is the element on which the take predicate fails).  For
filter the claim fails, as witnessed by the non-terminating always-false
counterexample. -/
theorem take_map_terminates_bounded_pulls :
    ∀ (α β : Type) (s : Nat → α) (mapping : α → Nat → β) (n : Nat),
      runM (takeStep n (mapStep mapping (natSrcStep s))) (n + 1) ((0, 0), 0) =
        ⟨(List.range n).map (fun t => mapping (s t) t), none, n + 1⟩ := by
  intro α β s mapping n
  have h := take_map_run s mapping n n 0 0 (by omega)
  have hfun : (fun t => mapping (s (0 + t)) (0 + t)) = (fun t => mapping (s t) t) := by
    funext t
    rw [Nat.zero_add]
  rw [hfun] at h
  exact h
